import Mathlib

/-!
Verification development for the subtitle-matching application
(`Matching_app.py`).  The program parses two SRT subtitle tracks,
filters each by script (Korean syllable block U+AC00..U+D7A3), applies a
constant shift to the Korean track's start times, matches each English
segment to the nearest-in-time shifted Korean segment within a one
second tolerance (`pd.merge_asof` with `direction='nearest'`), and
appends the Korean rows whose start time was never selected.

Times are modelled as integers (milliseconds; the source works with
pandas Timedeltas built from millisecond-precision SRT stamps and a
three-decimal shift in seconds).  All definitions below are translated
from the source; `merge_asof_row` reproduces the pandas `merge_asof`
`direction='nearest'` semantics on sorted keys: the backward candidate
is the last row with key at most the left key, the forward candidate the
first row with key at least the left key, each subject to the tolerance,
and a distance tie between the two goes to the backward candidate.
-/

/-- A subtitle segment as one row of the parsed DataFrame:
`start_time`, `end_time`, `text` (line breaks already collapsed). -/
structure Seg where
  start_time : Int
  end_time : Int
  text : String
deriving DecidableEq, Repr

/-- Mirrors `has_kor = bool(re.search(r'[가-힣]', text))`:
true iff some codepoint of the text lies in the Hangul syllable block. -/
def has_kor (text : String) : Bool :=
  text.data.any fun c => decide (0xAC00 ≤ c.toNat ∧ c.toNat ≤ 0xD7A3)

/-- The language filter of `parse_srt_to_df`: a row is skipped when
`lang == 'en'` and it has Korean, or `lang == 'ko'` and it has none. -/
def keep_row (lang : String) (text : String) : Bool :=
  if lang == "en" && has_kor text then false
  else if lang == "ko" && !has_kor text then false
  else true

/-- The rows kept by `parse_srt_to_df` for a given language tag. -/
def parse_filter (lang : String) (rows : List Seg) : List Seg :=
  rows.filter fun s => keep_row lang s.text

/-- Mirrors `k2['start_time'] -= pd.to_timedelta(shift_sec, unit='s')`
on a fresh copy: every start time decreases by the offset, nothing else
changes. -/
def shift_track (k : List Seg) (off : Int) : List Seg :=
  k.map fun s => { s with start_time := s.start_time - off }

/-- The session state relevant to the shift button: the loaded Korean
DataFrame and the stashed `st.session_state.kor_shifted`. -/
structure MatchSession where
  kor_df : List Seg
  kor_shifted : Option (List Seg)
deriving DecidableEq, Repr

/-- One click of "Apply shift": recomputes the shifted track from the
original `kor_df` (the code copies `kor_df`, never `kor_shifted`). -/
def apply_shift (st : MatchSession) (off : Int) : MatchSession :=
  { st with kor_shifted := some (shift_track st.kor_df off) }

/-- Ordering of rows by `start_time`, the key of `sort_values`. -/
def seg_le (a b : Seg) : Prop := a.start_time ≤ b.start_time

instance : DecidableRel seg_le := fun a b =>
  inferInstanceAs (Decidable (a.start_time ≤ b.start_time))

instance : IsTotal Seg seg_le := ⟨fun a b => le_total a.start_time b.start_time⟩

instance : IsTrans Seg seg_le := ⟨fun _ _ _ h1 h2 => le_trans h1 h2⟩

/-- Strict version of `seg_le`, used to compare sorted permutations. -/
def seg_lt (a b : Seg) : Prop := a.start_time < b.start_time

instance : IsAntisymm Seg seg_lt :=
  ⟨fun _ _ h1 h2 => absurd (lt_trans h1 h2) (lt_irrefl _)⟩

/-- Model of `df.sort_values('start_time')`: an ascending sort by
start time (a stable sort; pandas sorts by the same key). -/
def sort_values (l : List Seg) : List Seg :=
  List.insertionSort seg_le l

/-- Last row of the list whose start time is at most `t`.  On a sorted
list this is the backward candidate of `merge_asof`. -/
def last_le (k : List Seg) (t : Int) : Option Seg :=
  match k with
  | [] => none
  | s :: rest =>
    match last_le rest t with
    | some r => some r
    | none => if s.start_time ≤ t then some s else none

/-- First row of the list whose start time is at least `t`.  On a sorted
list this is the forward candidate of `merge_asof`. -/
def first_ge (k : List Seg) (t : Int) : Option Seg :=
  match k with
  | [] => none
  | s :: rest => if t ≤ s.start_time then some s else first_ge rest t

/-- Backward candidate of the nearest merge: the last row with key at
most `t`, kept only within the tolerance. -/
def backward_cand (k : List Seg) (tol t : Int) : Option Seg :=
  match last_le k t with
  | some s => if t - s.start_time ≤ tol then some s else none
  | none => none

/-- Forward candidate of the nearest merge: the first row with key at
least `t`, kept only within the tolerance. -/
def forward_cand (k : List Seg) (tol t : Int) : Option Seg :=
  match first_ge k t with
  | some s => if s.start_time - t ≤ tol then some s else none
  | none => none

/-- The row `pd.merge_asof(..., direction='nearest', tolerance=tol)`
assigns to a left key `t`: with both candidates present the backward one
wins when its distance is at most the forward distance. -/
def merge_asof_row (k : List Seg) (tol t : Int) : Option Seg :=
  match backward_cand k tol t, forward_cand k tol t with
  | some sb, some sf => if t - sb.start_time ≤ sf.start_time - t then some sb else some sf
  | some sb, none => some sb
  | none, some sf => some sf
  | none, none => none

/-- The merged frame `matched`: one row per English row, carrying the
selected Korean row when one exists. -/
def matched (e2 k2 : List Seg) (tol : Int) : List (Seg × Option Seg) :=
  e2.map fun e => (e, merge_asof_row k2 tol e.start_time)

/-- The two text columns of `matched` (`matched[['Eng_text','Kor_text']]`);
a missing match leaves the Korean cell as NaN, modelled by `none`. -/
def matched_pairs (e2 k2 : List Seg) (tol : Int) : List (String × Option String) :=
  (matched e2 k2 tol).map fun p => (p.1.text, p.2.map Seg.text)

/-- The start times appearing in `matched['start_time_KOR'].dropna()`
(membership is unchanged by `.unique()`). -/
def matched_kor_times (e2 k2 : List Seg) (tol : Int) : List Int :=
  (matched e2 k2 tol).filterMap fun p => p.2.map Seg.start_time

/-- Korean rows whose start time never appears among the selected start
times (`~k2['start_time_KOR'].isin(matched_kor_times)`). -/
def unmatched_kor (e2 k2 : List Seg) (tol : Int) : List Seg :=
  k2.filter fun c => !(matched_kor_times e2 k2 tol).contains c.start_time

/-- The concatenated frame `final`: matched pairs first, then the
unmatched Korean rows with an empty English cell. -/
def final (e2 k2 : List Seg) (tol : Int) : List (String × Option String) :=
  matched_pairs e2 k2 tol ++ (unmatched_kor e2 k2 tol).map fun c => ("", some c.text)

/-- Rendering of a cell by `to_csv`: a NaN cell becomes the empty
string. -/
def render_cell (o : Option String) : String := o.getD ""

/-- The persisted CSV rows of `final`. -/
def final_csv (e2 k2 : List Seg) (tol : Int) : List (String × String) :=
  (final e2 k2 tol).map fun p => (p.1, render_cell p.2)

/-- The whole "Run automatic matching" action: both frames are sorted by
start time, merged with a one second (1000 ms) tolerance, reconciled and
written out. -/
def run_automatic_matching (eng kor_shifted : List Seg) : List (String × String) :=
  final_csv (sort_values eng) (sort_values kor_shifted) 1000

/-- A Python literal arriving through `ast.literal_eval` as one entry of
an index list: an integer, or some non-integer value. -/
inductive PyVal where
  | pint : Int → PyVal
  | other : PyVal
deriving DecidableEq, Repr

/-- Positional lookup of one index as `df.iloc` resolves it: negative
indices count from the end, anything out of bounds or non-integral
raises. -/
def iloc_get (df : List Seg) (v : PyVal) : Option Seg :=
  match v with
  | .pint i =>
    if 0 ≤ i then df.get? i.toNat
    else if 0 ≤ i + df.length then df.get? (i + df.length).toNat
    else none
  | .other => none

/-- The row selection `df.iloc[idx_list]`: all indices resolve or the
whole lookup raises. -/
def iloc (df : List Seg) (idxs : List PyVal) : Option (List Seg) :=
  match idxs with
  | [] => some []
  | v :: rest =>
    match iloc_get df v, iloc df rest with
    | some s, some out => some (s :: out)
    | _, _ => none

/-- Whether one entry of an index list is an integer within the bounds
`df.iloc` accepts. -/
def valid_idx (df : List Seg) (v : PyVal) : Bool :=
  match v with
  | .pint i => decide (-(df.length : Int) ≤ i ∧ i < df.length)
  | .other => false

/-- One row of the manual-match table. -/
structure ManualRow where
  start_time_ENG : Int
  eng_text : String
  start_time_KOR : Int
  kor_text : String
  interval : Int
deriving DecidableEq, Repr

/-- One combined record of the manual loop, with
`interval = k['start_time'] - e['start_time']`. -/
def manual_row (e k : Seg) : ManualRow :=
  ⟨e.start_time, e.text, k.start_time, k.text, k.start_time - e.start_time⟩

/-- The "Show manual match" action: select rows by the two index lists
and zip them positionally (`zip` stops at the shorter); any failure is
caught and no table is produced. -/
def show_manual_match (eng kor : List Seg) (ei ki : List PyVal) :
    Option (List ManualRow) :=
  match iloc eng ei, iloc kor ki with
  | some se, some sk => some (List.zipWith manual_row se sk)
  | _, _ => none

/-! Helper lemmas about the nearest-merge candidates. -/

/-- Absolute difference rewrites to the left when the point is at most
the key. -/
theorem abs_sub_of_le {a t : Int} (h : a ≤ t) : |a - t| = t - a := by
  rw [abs_sub_comm]; exact abs_of_nonneg (by omega)

/-- Absolute difference rewrites to the right when the point is at
least the key. -/
theorem abs_sub_of_ge {a t : Int} (h : t ≤ a) : |a - t| = a - t :=
  abs_of_nonneg (by omega)

/-- A backward candidate lies in the list and before the key. -/
theorem last_le_mem {k : List Seg} {t : Int} {b : Seg}
    (h : last_le k t = some b) : b ∈ k ∧ b.start_time ≤ t := by
  induction k with
  | nil => simp [last_le] at h
  | cons s rest ih =>
    rw [last_le] at h
    cases hr : last_le rest t with
    | some r =>
      rw [hr] at h
      injection h with hh
      subst hh
      obtain ⟨hm, hle⟩ := ih hr
      exact ⟨List.mem_cons_of_mem _ hm, hle⟩
    | none =>
      rw [hr] at h
      by_cases hc : s.start_time ≤ t
      · rw [if_pos hc] at h
        cases h
        exact ⟨List.mem_cons_self _ _, hc⟩
      · rw [if_neg hc] at h
        cases h

/-- When no backward candidate exists every row lies strictly after the
key. -/
theorem last_le_eq_none {k : List Seg} {t : Int}
    (h : last_le k t = none) : ∀ c ∈ k, t < c.start_time := by
  induction k with
  | nil => intro c hc; simp at hc
  | cons s rest ih =>
    rw [last_le] at h
    cases hr : last_le rest t with
    | some r => rw [hr] at h; cases h
    | none =>
      rw [hr] at h
      by_cases hc : s.start_time ≤ t
      · rw [if_pos hc] at h; cases h
      · intro c hcmem
        rcases List.mem_cons.mp hcmem with rfl | hcm
        · omega
        · exact ih hr c hcm

/-- On a sorted list the backward candidate has the largest key among
rows before the key. -/
theorem last_le_max {k : List Seg} {t : Int} {b : Seg}
    (hs : k.Pairwise seg_le) (h : last_le k t = some b) :
    ∀ c ∈ k, c.start_time ≤ t → c.start_time ≤ b.start_time := by
  induction k with
  | nil => intro c hc; simp at hc
  | cons s rest ih =>
    rw [List.pairwise_cons] at hs
    rw [last_le] at h
    cases hr : last_le rest t with
    | some r =>
      rw [hr] at h
      injection h with hh
      subst hh
      intro c hcmem hct
      rcases List.mem_cons.mp hcmem with rfl | hcm
      · exact hs.1 r (last_le_mem hr).1
      · exact ih hs.2 hr c hcm hct
    | none =>
      rw [hr] at h
      by_cases hc : s.start_time ≤ t
      · rw [if_pos hc] at h
        cases h
        intro c hcmem hct
        rcases List.mem_cons.mp hcmem with rfl | hcm
        · exact le_refl _
        · exact absurd hct (by have := last_le_eq_none hr c hcm; omega)
      · rw [if_neg hc] at h
        cases h

/-- A forward candidate lies in the list and after the key. -/
theorem first_ge_mem {k : List Seg} {t : Int} {f : Seg}
    (h : first_ge k t = some f) : f ∈ k ∧ t ≤ f.start_time := by
  induction k with
  | nil => simp [first_ge] at h
  | cons s rest ih =>
    rw [first_ge] at h
    by_cases hc : t ≤ s.start_time
    · rw [if_pos hc] at h
      cases h
      exact ⟨List.mem_cons_self _ _, hc⟩
    · rw [if_neg hc] at h
      obtain ⟨hm, hge⟩ := ih h
      exact ⟨List.mem_cons_of_mem _ hm, hge⟩

/-- When no forward candidate exists every row lies strictly before the
key. -/
theorem first_ge_eq_none {k : List Seg} {t : Int}
    (h : first_ge k t = none) : ∀ c ∈ k, c.start_time < t := by
  induction k with
  | nil => intro c hc; simp at hc
  | cons s rest ih =>
    rw [first_ge] at h
    by_cases hc : t ≤ s.start_time
    · rw [if_pos hc] at h; cases h
    · rw [if_neg hc] at h
      intro c hcmem
      rcases List.mem_cons.mp hcmem with rfl | hcm
      · omega
      · exact ih h c hcm

/-- On a sorted list the forward candidate has the smallest key among
rows after the key. -/
theorem first_ge_min {k : List Seg} {t : Int} {f : Seg}
    (hs : k.Pairwise seg_le) (h : first_ge k t = some f) :
    ∀ c ∈ k, t ≤ c.start_time → f.start_time ≤ c.start_time := by
  induction k with
  | nil => intro c hc; simp at hc
  | cons s rest ih =>
    rw [List.pairwise_cons] at hs
    rw [first_ge] at h
    by_cases hc : t ≤ s.start_time
    · rw [if_pos hc] at h
      cases h
      intro c hcmem _
      rcases List.mem_cons.mp hcmem with rfl | hcm
      · exact le_refl _
      · exact hs.1 c hcm
    · rw [if_neg hc] at h
      intro c hcmem hct
      rcases List.mem_cons.mp hcmem with rfl | hcm
      · omega
      · exact ih hs.2 h c hcm hct

/-- Inversion of a present backward candidate. -/
theorem backward_cand_eq_some {k : List Seg} {tol t : Int} {sb : Seg}
    (h : backward_cand k tol t = some sb) :
    last_le k t = some sb ∧ t - sb.start_time ≤ tol := by
  cases hl : last_le k t with
  | none => simp [backward_cand, hl] at h
  | some s =>
    simp only [backward_cand, hl] at h
    split_ifs at h with hc
    injection h with hh
    subst hh
    exact ⟨rfl, hc⟩

/-- Inversion of an absent backward candidate. -/
theorem backward_cand_eq_none {k : List Seg} {tol t : Int}
    (h : backward_cand k tol t = none) :
    last_le k t = none ∨ ∃ s, last_le k t = some s ∧ tol < t - s.start_time := by
  cases hl : last_le k t with
  | none => exact Or.inl rfl
  | some s =>
    simp only [backward_cand, hl] at h
    split_ifs at h with hc
    exact Or.inr ⟨s, rfl, by omega⟩

/-- Inversion of a present forward candidate. -/
theorem forward_cand_eq_some {k : List Seg} {tol t : Int} {sf : Seg}
    (h : forward_cand k tol t = some sf) :
    first_ge k t = some sf ∧ sf.start_time - t ≤ tol := by
  cases hl : first_ge k t with
  | none => simp [forward_cand, hl] at h
  | some s =>
    simp only [forward_cand, hl] at h
    split_ifs at h with hc
    injection h with hh
    subst hh
    exact ⟨rfl, hc⟩

/-- Inversion of an absent forward candidate. -/
theorem forward_cand_eq_none {k : List Seg} {tol t : Int}
    (h : forward_cand k tol t = none) :
    first_ge k t = none ∨ ∃ s, first_ge k t = some s ∧ tol < s.start_time - t := by
  cases hl : first_ge k t with
  | none => exact Or.inl rfl
  | some s =>
    simp only [forward_cand, hl] at h
    split_ifs at h with hc
    exact Or.inr ⟨s, rfl, by omega⟩

/-- Specification of a selected backward candidate: in range, nearest,
and any equal-distance row of a different start time lies forward. -/
theorem chosen_backward_spec {k : List Seg} {tol t : Int} {m : Seg}
    (hs : k.Pairwise seg_le) (hlast : last_le k t = some m)
    (htol : t - m.start_time ≤ tol)
    (hfwd : ∀ c ∈ k, t < c.start_time → t - m.start_time ≤ c.start_time - t) :
    m ∈ k ∧ |m.start_time - t| ≤ tol ∧
      (∀ c ∈ k, |m.start_time - t| ≤ |c.start_time - t|) ∧
      (∀ c ∈ k, |c.start_time - t| = |m.start_time - t| →
        c.start_time ≠ m.start_time → m.start_time < t ∧ t < c.start_time) := by
  obtain ⟨hmem, hmle⟩ := last_le_mem hlast
  have habs : |m.start_time - t| = t - m.start_time := abs_sub_of_le hmle
  refine ⟨hmem, by omega, ?_, ?_⟩
  · intro c hc
    rcases le_or_lt c.start_time t with hct | hct
    · have := last_le_max hs hlast c hc hct
      rw [habs, abs_sub_of_le hct]; omega
    · have := hfwd c hc hct
      rw [habs, abs_sub_of_ge (le_of_lt hct)]; omega
  · intro c hc hceq hcne
    rcases le_or_lt c.start_time t with hct | hct
    · rw [habs, abs_sub_of_le hct] at hceq
      omega
    · rw [habs, abs_sub_of_ge (le_of_lt hct)] at hceq
      omega

/-- Specification of a selected forward candidate, under the fact that
every backward row is strictly farther. -/
theorem chosen_forward_spec {k : List Seg} {tol t : Int} {m : Seg}
    (hs : k.Pairwise seg_le) (hfirst : first_ge k t = some m)
    (htol : m.start_time - t ≤ tol)
    (hbwd : ∀ c ∈ k, c.start_time ≤ t → m.start_time - t < t - c.start_time) :
    m ∈ k ∧ |m.start_time - t| ≤ tol ∧
      (∀ c ∈ k, |m.start_time - t| ≤ |c.start_time - t|) ∧
      (∀ c ∈ k, |c.start_time - t| = |m.start_time - t| →
        c.start_time ≠ m.start_time → m.start_time < t ∧ t < c.start_time) := by
  obtain ⟨hmem, hmge⟩ := first_ge_mem hfirst
  have habs : |m.start_time - t| = m.start_time - t := abs_sub_of_ge hmge
  refine ⟨hmem, by omega, ?_, ?_⟩
  · intro c hc
    rcases le_or_lt c.start_time t with hct | hct
    · have := hbwd c hc hct
      rw [habs, abs_sub_of_le hct]; omega
    · have := first_ge_min hs hfirst c hc (le_of_lt hct)
      rw [habs, abs_sub_of_ge (le_of_lt hct)]; omega
  · intro c hc hceq hcne
    rcases le_or_lt c.start_time t with hct | hct
    · have := hbwd c hc hct
      rw [habs, abs_sub_of_le hct] at hceq
      omega
    · rw [habs, abs_sub_of_ge (le_of_lt hct)] at hceq
      omega

/-- Full specification of the nearest merge on a sorted comparison
list: a produced row is a member, within tolerance, no row is strictly
closer, and an equal-distance row with a different start time means the
selection was the backward side. -/
theorem merge_asof_row_spec {k : List Seg} {tol t : Int} {m : Seg}
    (hs : k.Pairwise seg_le) (hm : merge_asof_row k tol t = some m) :
    m ∈ k ∧ |m.start_time - t| ≤ tol ∧
      (∀ c ∈ k, |m.start_time - t| ≤ |c.start_time - t|) ∧
      (∀ c ∈ k, |c.start_time - t| = |m.start_time - t| →
        c.start_time ≠ m.start_time → m.start_time < t ∧ t < c.start_time) := by
  cases hb : backward_cand k tol t with
  | some sb =>
    cases hf : forward_cand k tol t with
    | some sf =>
      simp only [merge_asof_row, hb, hf] at hm
      obtain ⟨hbl, hbtol⟩ := backward_cand_eq_some hb
      obtain ⟨hfl, hftol⟩ := forward_cand_eq_some hf
      split_ifs at hm with hcomp
      · injection hm with hh
        subst hh
        refine chosen_backward_spec hs hbl hbtol ?_
        intro c hc hct
        have := first_ge_min hs hfl c hc (le_of_lt hct)
        omega
      · injection hm with hh
        subst hh
        refine chosen_forward_spec hs hfl hftol ?_
        intro c hc hct
        have := last_le_max hs hbl c hc hct
        omega
    | none =>
      simp only [merge_asof_row, hb, hf] at hm
      injection hm with hh
      subst hh
      obtain ⟨hbl, hbtol⟩ := backward_cand_eq_some hb
      refine chosen_backward_spec hs hbl hbtol ?_
      intro c hc hct
      rcases forward_cand_eq_none hf with hfn | ⟨s, hfs, hstol⟩
      · exact absurd hct (by have := first_ge_eq_none hfn c hc; omega)
      · have := first_ge_min hs hfs c hc (le_of_lt hct)
        omega
  | none =>
    cases hf : forward_cand k tol t with
    | some sf =>
      simp only [merge_asof_row, hb, hf] at hm
      injection hm with hh
      subst hh
      obtain ⟨hfl, hftol⟩ := forward_cand_eq_some hf
      refine chosen_forward_spec hs hfl hftol ?_
      intro c hc hct
      rcases backward_cand_eq_none hb with hbn | ⟨s, hbs, hstol⟩
      · exact absurd hct (by have := last_le_eq_none hbn c hc; omega)
      · have := last_le_max hs hbs c hc hct
        omega
    | none =>
      simp only [merge_asof_row, hb, hf] at hm
      exact Option.noConfusion hm

/-- A missing merge row forces both candidates to be missing. -/
theorem merge_asof_row_eq_none_parts {k : List Seg} {tol t : Int}
    (h : merge_asof_row k tol t = none) :
    backward_cand k tol t = none ∧ forward_cand k tol t = none := by
  cases hb : backward_cand k tol t with
  | some sb =>
    cases hf : forward_cand k tol t with
    | some sf =>
      exfalso
      simp only [merge_asof_row, hb, hf] at h
      split_ifs at h
    | none =>
      exfalso
      simp only [merge_asof_row, hb, hf] at h
      exact Option.noConfusion h
  | none =>
    cases hf : forward_cand k tol t with
    | some sf =>
      exfalso
      simp only [merge_asof_row, hb, hf] at h
      exact Option.noConfusion h
    | none => exact ⟨rfl, rfl⟩

/-- On a sorted comparison list the merge produces no row exactly when
every row is strictly beyond the tolerance. -/
theorem merge_asof_row_eq_none_iff {k : List Seg} {tol t : Int}
    (hs : k.Pairwise seg_le) :
    merge_asof_row k tol t = none ↔ ∀ c ∈ k, tol < |c.start_time - t| := by
  constructor
  · intro h c hc
    obtain ⟨hb, hf⟩ := merge_asof_row_eq_none_parts h
    rcases le_or_lt c.start_time t with hct | hct
    · rcases backward_cand_eq_none hb with hbn | ⟨s, hbs, hstol⟩
      · have := last_le_eq_none hbn c hc
        rw [abs_sub_of_le hct]; omega
      · have := last_le_max hs hbs c hc hct
        rw [abs_sub_of_le hct]; omega
    · rcases forward_cand_eq_none hf with hfn | ⟨s, hfs, hstol⟩
      · have := first_ge_eq_none hfn c hc
        rw [abs_sub_of_ge (le_of_lt hct)]; omega
      · have := first_ge_min hs hfs c hc (le_of_lt hct)
        rw [abs_sub_of_ge (le_of_lt hct)]; omega
  · intro h
    cases hm : merge_asof_row k tol t with
    | none => rfl
    | some m =>
      exfalso
      obtain ⟨hmem, htol, -, -⟩ := merge_asof_row_spec hs hm
      exact absurd (h m hmem) (by omega)

/-! Lemmas about the language filter. -/

/-- Characterization of a positive Hangul detection. -/
theorem has_kor_eq_true_iff (t : String) :
    has_kor t = true ↔ ∃ c ∈ t.data, 0xAC00 ≤ c.toNat ∧ c.toNat ≤ 0xD7A3 := by
  simp [has_kor, List.any_eq_true]

/-- Characterization of a negative Hangul detection. -/
theorem has_kor_eq_false_iff (t : String) :
    has_kor t = false ↔ ∀ c ∈ t.data, ¬(0xAC00 ≤ c.toNat ∧ c.toNat ≤ 0xD7A3) := by
  rw [← Bool.not_eq_true, has_kor_eq_true_iff]
  push_neg
  rfl

/-- For the English tag the filter keeps exactly the rows without
Hangul. -/
theorem keep_row_en (t : String) : keep_row "en" t = !has_kor t := by
  have h1 : (("en" : String) == "en") = true := by decide
  have h2 : (("en" : String) == "ko") = false := by decide
  unfold keep_row
  cases h : has_kor t <;> simp [h, h1, h2]

/-- For the Korean tag the filter keeps exactly the rows with Hangul. -/
theorem keep_row_ko (t : String) : keep_row "ko" t = has_kor t := by
  have h1 : (("ko" : String) == "en") = false := by decide
  have h2 : (("ko" : String) == "ko") = true := by decide
  unfold keep_row
  cases h : has_kor t <;> simp [h, h1, h2]

/-- C7: filtering with the primary language keeps exactly the segments
whose text has no codepoint in the Hangul block U+AC00..U+D7A3,
filtering with the secondary keeps exactly those with at least one such
codepoint, the two filters partition the raw rows, and an empty text is
classified as primary. -/
theorem C7_language_filter_partition (rows : List Seg) (s : Seg) (h : s ∈ rows) :
    (s ∈ parse_filter "en" rows ↔ ∀ c ∈ s.text.data, ¬(0xAC00 ≤ c.toNat ∧ c.toNat ≤ 0xD7A3)) ∧
    (s ∈ parse_filter "ko" rows ↔ ∃ c ∈ s.text.data, 0xAC00 ≤ c.toNat ∧ c.toNat ≤ 0xD7A3) ∧
    (parse_filter "en" rows).length + (parse_filter "ko" rows).length = rows.length ∧
    (s.text = "" → s ∈ parse_filter "en" rows) := by
  have hen : parse_filter "en" rows = rows.filter fun s => !has_kor s.text := by
    unfold parse_filter
    exact List.filter_congr fun x _ => keep_row_en x.text
  have hko : parse_filter "ko" rows = rows.filter fun s => has_kor s.text := by
    unfold parse_filter
    exact List.filter_congr fun x _ => keep_row_ko x.text
  refine ⟨?_, ?_, ?_, ?_⟩
  · rw [hen, List.mem_filter]
    simp only [h, true_and, Bool.not_eq_true']
    exact has_kor_eq_false_iff s.text
  · rw [hko, List.mem_filter]
    simp only [h, true_and]
    exact has_kor_eq_true_iff s.text
  · rw [hen, hko]
    have := List.length_eq_length_filter_add (l := rows) (f := fun s => has_kor s.text)
    omega
  · intro ht
    rw [hen, List.mem_filter]
    refine ⟨h, ?_⟩
    rw [ht]
    rfl

/-- C7 witness at a concrete two-row track. -/
theorem C7_language_filter_partition_witness :
    (Seg.mk 0 1 "hello" ∈ [Seg.mk 0 1 "hello", Seg.mk 2 3 "안녕"]) ∧
    ((Seg.mk 0 1 "hello" ∈ parse_filter "en" [Seg.mk 0 1 "hello", Seg.mk 2 3 "안녕"] ↔
        ∀ c ∈ (Seg.mk 0 1 "hello").text.data, ¬(0xAC00 ≤ c.toNat ∧ c.toNat ≤ 0xD7A3)) ∧
      (Seg.mk 0 1 "hello" ∈ parse_filter "ko" [Seg.mk 0 1 "hello", Seg.mk 2 3 "안녕"] ↔
        ∃ c ∈ (Seg.mk 0 1 "hello").text.data, 0xAC00 ≤ c.toNat ∧ c.toNat ≤ 0xD7A3) ∧
      (parse_filter "en" [Seg.mk 0 1 "hello", Seg.mk 2 3 "안녕"]).length +
          (parse_filter "ko" [Seg.mk 0 1 "hello", Seg.mk 2 3 "안녕"]).length =
        ([Seg.mk 0 1 "hello", Seg.mk 2 3 "안녕"] : List Seg).length ∧
      ((Seg.mk 0 1 "hello").text = "" →
        Seg.mk 0 1 "hello" ∈ parse_filter "en" [Seg.mk 0 1 "hello", Seg.mk 2 3 "안녕"])) :=
  ⟨by decide, C7_language_filter_partition _ _ (by decide)⟩

/-- C5: the shift rewrites every row's start time to `start - offset`
and leaves the end time and the text untouched; the track length is
unchanged. -/
theorem C5_shift_frame_effect (k : List Seg) (off : Int) :
    (shift_track k off).length = k.length ∧
    ∀ i : Nat, (shift_track k off).get? i =
      (k.get? i).map fun s => Seg.mk (s.start_time - off) s.end_time s.text := by
  refine ⟨by simp [shift_track], fun i => ?_⟩
  simp [shift_track, List.get?_map]

/-- Repeated clicks leave the loaded Korean track untouched. -/
theorem foldl_apply_shift_kor_df (st : MatchSession) (offs : List Int) :
    (offs.foldl apply_shift st).kor_df = st.kor_df := by
  induction offs generalizing st with
  | nil => rfl
  | cons o rest ih => rw [List.foldl_cons]; exact ih (apply_shift st o)

/-- After a nonempty sequence of clicks the stash holds the original
track shifted by the most recent offset only. -/
theorem foldl_apply_shift_last (st : MatchSession) (offs : List Int) (h : offs ≠ []) :
    (offs.foldl apply_shift st).kor_shifted =
      some (shift_track st.kor_df (offs.getLast h)) := by
  induction offs generalizing st with
  | nil => exact absurd rfl h
  | cons o rest ih =>
    cases rest with
    | nil => rfl
    | cons o2 r2 =>
      rw [List.foldl_cons, ih (apply_shift st o) (List.cons_ne_nil o2 r2)]
      rfl

/-- C6: Apply-shift never compounds; any sequence of invocations stores
the original track shifted by the last offset alone, the original track
is untouched, and reapplying the same offset is idempotent. -/
theorem C6_shift_never_compounds (st : MatchSession) (offs : List Int) (o : Int)
    (h : offs ≠ []) :
    (offs.foldl apply_shift st).kor_shifted =
        some (shift_track st.kor_df (offs.getLast h)) ∧
      (offs.foldl apply_shift st).kor_df = st.kor_df ∧
      apply_shift (apply_shift st o) o = apply_shift st o :=
  ⟨foldl_apply_shift_last st offs h, foldl_apply_shift_kor_df st offs, rfl⟩

/-- C6 witness: two consecutive clicks with offsets 5 then 3 end with
only the offset 3 applied to the original track. -/
theorem C6_shift_never_compounds_witness :
    (([(5 : Int), 3] : List Int) ≠ []) ∧
    ((([(5 : Int), 3] : List Int).foldl apply_shift
          (MatchSession.mk [Seg.mk 1000 2000 "k"] none)).kor_shifted =
        some (shift_track [Seg.mk 1000 2000 "k"] 3) ∧
      (([(5 : Int), 3] : List Int).foldl apply_shift
          (MatchSession.mk [Seg.mk 1000 2000 "k"] none)).kor_df =
        [Seg.mk 1000 2000 "k"] ∧
      apply_shift (apply_shift (MatchSession.mk [Seg.mk 1000 2000 "k"] none) 2) 2 =
        apply_shift (MatchSession.mk [Seg.mk 1000 2000 "k"] none) 2) :=
  ⟨by decide,
   C6_shift_never_compounds (MatchSession.mk [Seg.mk 1000 2000 "k"] none) [5, 3] 2 (by decide)⟩

/-- C4: a reference row with no match within tolerance appears in the
CSV with an empty comparison cell; and the spec scenario (reference A at
0s and B at 5s, shifted comparison a at 0.3s and c at 10s, tolerance
1s) yields exactly the rows (A,a), (B,""), ("",c). -/
theorem C4_null_match_and_scenario :
    (∀ (e2 k2 : List Seg) (tol : Int) (i : Nat) (e : Seg),
        e2.get? i = some e → merge_asof_row k2 tol e.start_time = none →
        (final_csv e2 k2 tol).get? i = some (e.text, "")) ∧
    run_automatic_matching [Seg.mk 0 2000 "A", Seg.mk 5000 7000 "B"]
        [Seg.mk 300 2300 "a", Seg.mk 10000 12000 "c"] =
      [("A", "a"), ("B", ""), ("", "c")] := by
  constructor
  · intro e2 k2 tol i e hge hrow
    have hi : i < e2.length := by
      rcases List.get?_eq_some.mp hge with ⟨hlt, -⟩
      exact hlt
    have hlen : i < (matched_pairs e2 k2 tol).length := by
      simp [matched_pairs, matched, hi]
    rw [final_csv, List.get?_map, final, List.get?_append hlen,
      matched_pairs, List.get?_map, matched, List.get?_map, hge]
    simp [hrow, render_cell]
  · rfl

/-- C10 counterexample: two reference tracks that are permutations of
one another (two rows sharing start time 0) produce different final
outputs, so the automatic matching is not invariant under row
permutation in general. -/
theorem C10_permutation_counterexample :
    List.Perm [Seg.mk 0 1 "B", Seg.mk 0 1 "A"] [Seg.mk 0 1 "A", Seg.mk 0 1 "B"] ∧
    run_automatic_matching [Seg.mk 0 1 "B", Seg.mk 0 1 "A"] [] ≠
      run_automatic_matching [Seg.mk 0 1 "A", Seg.mk 0 1 "B"] [] := by
  constructor
  · exact List.Perm.swap _ _ _
  · decide

/-- Sorting by start time is permutation-invariant once start times are
pairwise distinct. -/
theorem sort_values_eq_of_perm {l l2 : List Seg} (hp : l2.Perm l)
    (hd : l.Pairwise fun a b => a.start_time ≠ b.start_time) :
    sort_values l2 = sort_values l := by
  have hsym : ∀ {a b : Seg}, a.start_time ≠ b.start_time → b.start_time ≠ a.start_time :=
    fun h => h.symm
  have p2 : (sort_values l2).Perm (sort_values l) :=
    (List.perm_insertionSort seg_le l2).trans
      (hp.trans (List.perm_insertionSort seg_le l).symm)
  have hs1 : List.Sorted seg_le (sort_values l) := List.sorted_insertionSort seg_le l
  have hs2 : List.Sorted seg_le (sort_values l2) := List.sorted_insertionSort seg_le l2
  have hd1 : (sort_values l).Pairwise fun a b => a.start_time ≠ b.start_time :=
    ((List.perm_insertionSort seg_le l).pairwise_iff hsym).mpr hd
  have hd2 : (sort_values l2).Pairwise fun a b => a.start_time ≠ b.start_time :=
    ((p2.trans (List.perm_insertionSort seg_le l)).pairwise_iff hsym).mpr hd
  have hlt1 : List.Sorted seg_lt (sort_values l) :=
    (hs1.and hd1).imp fun hab => lt_of_le_of_ne hab.1 hab.2
  have hlt2 : List.Sorted seg_lt (sort_values l2) :=
    (hs2.and hd2).imp fun hab => lt_of_le_of_ne hab.1 hab.2
  exact List.eq_of_perm_of_sorted p2 hlt2 hlt1

/-- C10 amended: when start times are pairwise distinct within each
input track, the automatic matching output is invariant under any row
permutation of the reference and of the shifted comparison track. -/
theorem C10_permutation_invariance_amended (r r2 k k2 : List Seg)
    (hr : r2.Perm r) (hk : k2.Perm k)
    (hdr : r.Pairwise fun a b => a.start_time ≠ b.start_time)
    (hdk : k.Pairwise fun a b => a.start_time ≠ b.start_time) :
    run_automatic_matching r2 k2 = run_automatic_matching r k := by
  unfold run_automatic_matching
  rw [sort_values_eq_of_perm hr hdr, sort_values_eq_of_perm hk hdk]

/-- C10 witness at concrete permuted tracks with distinct start times. -/
theorem C10_permutation_invariance_witness :
    (List.Perm [Seg.mk 5000 6000 "B", Seg.mk 0 1000 "A"]
        [Seg.mk 0 1000 "A", Seg.mk 5000 6000 "B"]) ∧
    (List.Perm [Seg.mk 4800 5800 "y", Seg.mk 200 1200 "x"]
        [Seg.mk 200 1200 "x", Seg.mk 4800 5800 "y"]) ∧
    (([Seg.mk 0 1000 "A", Seg.mk 5000 6000 "B"] : List Seg).Pairwise
        fun a b => a.start_time ≠ b.start_time) ∧
    (([Seg.mk 200 1200 "x", Seg.mk 4800 5800 "y"] : List Seg).Pairwise
        fun a b => a.start_time ≠ b.start_time) ∧
    run_automatic_matching [Seg.mk 5000 6000 "B", Seg.mk 0 1000 "A"]
        [Seg.mk 4800 5800 "y", Seg.mk 200 1200 "x"] =
      run_automatic_matching [Seg.mk 0 1000 "A", Seg.mk 5000 6000 "B"]
        [Seg.mk 200 1200 "x", Seg.mk 4800 5800 "y"] :=
  ⟨by decide, by decide, by decide, by decide,
   C10_permutation_invariance_amended _ _ _ _ (by decide) (by decide) (by decide) (by decide)⟩

/-- C1 amended: every produced match lies within tolerance and no
comparison row is strictly closer; a reference row is matched to none
exactly when every comparison row is beyond the tolerance; an
equal-distance tie between rows of distinct start times goes to the row
before the reference start.  (Among rows sharing one start time the
selection is by value and can return the later-indexed row, see the
counterexample.) -/
theorem C1_nearest_matcher_amended (e2 k2 : List Seg) (tol : Int)
    (hs : k2.Pairwise seg_le) :
    (∀ e m, (e, some m) ∈ matched e2 k2 tol →
      m ∈ k2 ∧ |m.start_time - e.start_time| ≤ tol ∧
        (∀ c ∈ k2, |m.start_time - e.start_time| ≤ |c.start_time - e.start_time|) ∧
        (∀ c ∈ k2, |c.start_time - e.start_time| = |m.start_time - e.start_time| →
          c.start_time ≠ m.start_time →
          m.start_time < e.start_time ∧ e.start_time < c.start_time)) ∧
    (∀ e ∈ e2, ((e, (none : Option Seg)) ∈ matched e2 k2 tol ↔
      ∀ c ∈ k2, tol < |c.start_time - e.start_time|)) := by
  constructor
  · intro e m hmem
    obtain ⟨e', he', heq⟩ := List.mem_map.mp hmem
    injection heq with h1 h2
    subst h1
    exact merge_asof_row_spec hs h2
  · intro e he
    constructor
    · intro hmem
      obtain ⟨e', he', heq⟩ := List.mem_map.mp hmem
      injection heq with h1 h2
      subst h1
      exact (merge_asof_row_eq_none_iff hs).mp h2
    · intro hfar
      have hnone : merge_asof_row k2 tol e.start_time = none :=
        (merge_asof_row_eq_none_iff hs).mpr hfar
      unfold matched
      exact List.mem_map.mpr ⟨e, he, by rw [hnone]⟩

/-- C1 counterexample: with two comparison rows sharing start time 5 the
reference at 5 ties at distance 0 with both, and the matcher returns the
later-indexed row "y", not the earlier-indexed "x". -/
theorem C1_tie_counterexample :
    merge_asof_row [Seg.mk 5 6 "x", Seg.mk 5 6 "y"] 1000 5 = some (Seg.mk 5 6 "y") ∧
    Seg.mk 5 6 "y" ≠ Seg.mk 5 6 "x" ∧
    |(Seg.mk 5 6 "x").start_time - 5| = |(Seg.mk 5 6 "y").start_time - 5| := by
  refine ⟨rfl, by decide, rfl⟩

/-- C2: the matched block has one row per reference row, the final
output is that block followed by the unmatched comparison rows in the
comparison track's order, the lengths add, and on a sorted comparison
track the unmatched tail is ascending. -/
theorem C2_output_shape (e2 k2 : List Seg) (tol : Int) (hs : k2.Pairwise seg_le) :
    (matched_pairs e2 k2 tol).length = e2.length ∧
    final e2 k2 tol =
      matched_pairs e2 k2 tol ++
        (unmatched_kor e2 k2 tol).map (fun c => ("", some c.text)) ∧
    (final e2 k2 tol).length = e2.length + (unmatched_kor e2 k2 tol).length ∧
    (unmatched_kor e2 k2 tol).Pairwise seg_le := by
  refine ⟨by simp [matched_pairs, matched], rfl, ?_, ?_⟩
  · simp [final, matched_pairs, matched]
  · exact hs.sublist (List.filter_sublist _)

/-- Distinct start times identify rows of one track. -/
theorem pairwise_ne_inj {k : List Seg}
    (hd : k.Pairwise fun a b => a.start_time ≠ b.start_time) :
    ∀ a ∈ k, ∀ b ∈ k, a.start_time = b.start_time → a = b := by
  induction k with
  | nil => intro a ha; simp at ha
  | cons s rest ih =>
    rw [List.pairwise_cons] at hd
    intro a ha b hb heq
    rcases List.mem_cons.mp ha with rfl | ha2
    · rcases List.mem_cons.mp hb with rfl | hb2
      · rfl
      · exact absurd heq (hd.1 b hb2)
    · rcases List.mem_cons.mp hb with rfl | hb2
      · exact absurd heq.symm (hd.1 a ha2)
      · exact ih hd.2 a ha2 b hb2 heq

/-- Membership in the selected start times. -/
theorem mem_matched_kor_times {e2 k2 : List Seg} {tol x : Int} :
    x ∈ matched_kor_times e2 k2 tol ↔
      ∃ e ∈ e2, ∃ m, merge_asof_row k2 tol e.start_time = some m ∧
        m.start_time = x := by
  unfold matched_kor_times matched
  rw [List.mem_filterMap]
  constructor
  · rintro ⟨⟨e, om⟩, hmem, hom⟩
    obtain ⟨e', he', heq⟩ := List.mem_map.mp hmem
    injection heq with h1 h2
    subst h1
    cases om with
    | none => simp at hom
    | some m =>
      simp only [Option.map_some'] at hom
      injection hom with hom2
      exact ⟨e', he', m, h2, hom2⟩
  · rintro ⟨e, he, m, hrow, hx⟩
    refine ⟨(e, some m), List.mem_map.mpr ⟨e, he, by rw [hrow]⟩, by simpa using hx⟩

/-- Membership in the unmatched tail. -/
theorem mem_unmatched_kor {e2 k2 : List Seg} {tol : Int} {c : Seg} :
    c ∈ unmatched_kor e2 k2 tol ↔
      c ∈ k2 ∧ c.start_time ∉ matched_kor_times e2 k2 tol := by
  unfold unmatched_kor
  rw [List.mem_filter]
  simp [List.elem_iff]

/-- C3: with pairwise-distinct start times a comparison row is selected
by some reference row exactly when it is not in the unmatched tail, and
the unmatched tail has no duplicates.  (The selected-set test is on the
start-time value: the distinctness hypothesis is what makes a value a
row.) -/
theorem C3_exactly_once (e2 k2 : List Seg) (tol : Int) (c : Seg)
    (hs : k2.Pairwise seg_le)
    (hd : k2.Pairwise fun a b => a.start_time ≠ b.start_time)
    (hc : c ∈ k2) :
    ((∃ e ∈ e2, merge_asof_row k2 tol e.start_time = some c) ↔
        c ∉ unmatched_kor e2 k2 tol) ∧
      (unmatched_kor e2 k2 tol).Nodup := by
  constructor
  · constructor
    · rintro ⟨e, he, hrow⟩ hmem
      obtain ⟨-, hnot⟩ := mem_unmatched_kor.mp hmem
      exact hnot (mem_matched_kor_times.mpr ⟨e, he, c, hrow, rfl⟩)
    · intro hnin
      by_contra hsel
      rcases Classical.em (c.start_time ∈ matched_kor_times e2 k2 tol) with hin | hout
      · obtain ⟨e, he, m, hrow, hmx⟩ := mem_matched_kor_times.mp hin
        have hmk : m ∈ k2 := (merge_asof_row_spec hs hrow).1
        have hmc : m = c := pairwise_ne_inj hd m hmk c hc hmx
        exact hsel ⟨e, he, hmc ▸ hrow⟩
      · exact hnin (mem_unmatched_kor.mpr ⟨hc, hout⟩)
  · have hnd : k2.Nodup :=
      hd.imp fun hne heq => hne (congrArg Seg.start_time heq)
    exact hnd.sublist (List.filter_sublist _)

/-- A valid index always resolves to a row. -/
theorem iloc_get_isSome {df : List Seg} {v : PyVal}
    (h : valid_idx df v = true) : (iloc_get df v).isSome = true := by
  cases v with
  | other => simp [valid_idx] at h
  | pint i =>
    simp only [valid_idx, decide_eq_true_eq] at h
    obtain ⟨h1, h2⟩ := h
    simp only [iloc_get]
    by_cases hp : 0 ≤ i
    · rw [if_pos hp]
      have hlt : i.toNat < df.length := by omega
      rw [List.get?_eq_get hlt]
      rfl
    · rw [if_neg hp]
      have hge : 0 ≤ i + df.length := by omega
      rw [if_pos hge]
      have hlt : (i + df.length).toNat < df.length := by omega
      rw [List.get?_eq_get hlt]
      rfl

/-- An invalid index never resolves. -/
theorem iloc_get_eq_none {df : List Seg} {v : PyVal}
    (h : valid_idx df v = false) : iloc_get df v = none := by
  cases v with
  | other => rfl
  | pint i =>
    simp only [valid_idx, decide_eq_false_iff_not] at h
    simp only [iloc_get]
    by_cases hp : 0 ≤ i
    · rw [if_pos hp]
      refine List.get?_eq_none.mpr ?_
      omega
    · rw [if_neg hp]
      by_cases hq : 0 ≤ i + df.length
      · exact absurd ⟨by omega, by omega⟩ h
      · rw [if_neg hq]

/-- When every index of the list is valid the row selection succeeds
and preserves length. -/
theorem mapM_iloc_some {df : List Seg} {l : List PyVal}
    (h : ∀ v ∈ l, valid_idx df v = true) :
    ∃ out, iloc df l = some out ∧ out.length = l.length := by
  induction l with
  | nil => exact ⟨[], rfl, rfl⟩
  | cons v rest ih =>
    obtain ⟨out, hout, hlen⟩ := ih fun x hx => h x (List.mem_cons_of_mem _ hx)
    have hv := iloc_get_isSome (h v (List.mem_cons_self _ _))
    obtain ⟨s, hsv⟩ := Option.isSome_iff_exists.mp hv
    refine ⟨s :: out, ?_, by simp [hlen]⟩
    simp only [iloc, hsv, hout]

/-- One invalid index makes the whole selection raise. -/
theorem mapM_iloc_none {df : List Seg} {l : List PyVal} {v : PyVal}
    (hv : v ∈ l) (h : valid_idx df v = false) : iloc df l = none := by
  induction l with
  | nil => simp at hv
  | cons a rest ih =>
    rcases List.mem_cons.mp hv with rfl | hv2
    · simp only [iloc, iloc_get_eq_none h]
    · cases ha : iloc_get df a with
      | none => simp only [iloc, ha]
      | some s => simp only [iloc, ha, ih hv2]

/-- Every row of the manual table satisfies the interval formula. -/
theorem interval_eq_in_zip :
    ∀ (se sk : List Seg), ∀ r ∈ List.zipWith manual_row se sk,
      r.interval = r.start_time_KOR - r.start_time_ENG := by
  intro se
  induction se with
  | nil => intro sk r hr; simp at hr
  | cons e rest ih =>
    intro sk r hr
    cases sk with
    | nil => simp at hr
    | cons k1 skr =>
      rw [List.zipWith_cons_cons] at hr
      rcases List.mem_cons.mp hr with rfl | hr2
      · rfl
      · exact ih skr r hr2

/-- C8: with in-bounds integer index lists the manual builder selects
both row lists, zips them positionally to exactly
`min |ref indices| |cmp indices|` rows (extra indices dropped), and
every produced row carries `interval = cmp start - ref start` of its
positionally aligned elements. -/
theorem C8_manual_pairs (eng kor : List Seg) (ei ki : List PyVal)
    (he : ∀ v ∈ ei, valid_idx eng v = true)
    (hk : ∀ v ∈ ki, valid_idx kor v = true) :
    ∃ se sk, iloc eng ei = some se ∧ iloc kor ki = some sk ∧
      show_manual_match eng kor ei ki = some (List.zipWith manual_row se sk) ∧
      (List.zipWith manual_row se sk).length = min ei.length ki.length ∧
      ∀ r ∈ List.zipWith manual_row se sk,
        r.interval = r.start_time_KOR - r.start_time_ENG := by
  obtain ⟨se, hse, hlse⟩ := mapM_iloc_some he
  obtain ⟨sk, hsk, hlsk⟩ := mapM_iloc_some hk
  refine ⟨se, sk, hse, hsk, ?_, ?_, interval_eq_in_zip se sk⟩
  · unfold show_manual_match
    rw [hse, hsk]
  · rw [List.length_zipWith, hlse, hlsk]

/-- C8 witness: reference indices (0,1) and comparison index (0) on
two-row tracks produce exactly one manual pair. -/
theorem C8_manual_pairs_witness :
    (∀ v ∈ ([PyVal.pint 0, PyVal.pint 1] : List PyVal),
        valid_idx [Seg.mk 0 1000 "A", Seg.mk 5000 6000 "B"] v = true) ∧
    (∀ v ∈ ([PyVal.pint 0] : List PyVal),
        valid_idx [Seg.mk 300 1300 "a", Seg.mk 10000 11000 "c"] v = true) ∧
    (∃ se sk,
      iloc [Seg.mk 0 1000 "A", Seg.mk 5000 6000 "B"] [PyVal.pint 0, PyVal.pint 1] =
          some se ∧
      iloc [Seg.mk 300 1300 "a", Seg.mk 10000 11000 "c"] [PyVal.pint 0] = some sk ∧
      show_manual_match [Seg.mk 0 1000 "A", Seg.mk 5000 6000 "B"]
          [Seg.mk 300 1300 "a", Seg.mk 10000 11000 "c"]
          [PyVal.pint 0, PyVal.pint 1] [PyVal.pint 0] =
        some (List.zipWith manual_row se sk) ∧
      (List.zipWith manual_row se sk).length =
        min ([PyVal.pint 0, PyVal.pint 1] : List PyVal).length
          ([PyVal.pint 0] : List PyVal).length ∧
      ∀ r ∈ List.zipWith manual_row se sk,
        r.interval = r.start_time_KOR - r.start_time_ENG) :=
  ⟨by decide, by decide,
   C8_manual_pairs [Seg.mk 0 1000 "A", Seg.mk 5000 6000 "B"]
     [Seg.mk 300 1300 "a", Seg.mk 10000 11000 "c"]
     [PyVal.pint 0, PyVal.pint 1] [PyVal.pint 0] (by decide) (by decide)⟩

/-- C9: any out-of-bounds or non-integer index in either list makes the
manual builder fail with no table produced. -/
theorem C9_manual_invalid_index (eng kor : List Seg) (ei ki : List PyVal)
    (h : (∃ v ∈ ei, valid_idx eng v = false) ∨
      (∃ v ∈ ki, valid_idx kor v = false)) :
    show_manual_match eng kor ei ki = none := by
  unfold show_manual_match
  rcases h with ⟨v, hv, hval⟩ | ⟨v, hv, hval⟩
  · rw [mapM_iloc_none hv hval]
  · rw [mapM_iloc_none hv hval]
    cases iloc eng ei <;> rfl

/-- C9 witness: index 99 on a five-row track raises and produces no
pairs. -/
theorem C9_manual_invalid_index_witness :
    ((∃ v ∈ ([PyVal.pint 99] : List PyVal),
        valid_idx [Seg.mk 0 1 "s1", Seg.mk 2 3 "s2", Seg.mk 4 5 "s3",
          Seg.mk 6 7 "s4", Seg.mk 8 9 "s5"] v = false) ∨
      (∃ v ∈ ([PyVal.pint 0] : List PyVal),
        valid_idx [Seg.mk 300 1300 "a"] v = false)) ∧
    show_manual_match [Seg.mk 0 1 "s1", Seg.mk 2 3 "s2", Seg.mk 4 5 "s3",
        Seg.mk 6 7 "s4", Seg.mk 8 9 "s5"] [Seg.mk 300 1300 "a"]
        [PyVal.pint 99] [PyVal.pint 0] = none :=
  ⟨by decide,
   C9_manual_invalid_index [Seg.mk 0 1 "s1", Seg.mk 2 3 "s2", Seg.mk 4 5 "s3",
     Seg.mk 6 7 "s4", Seg.mk 8 9 "s5"] [Seg.mk 300 1300 "a"]
     [PyVal.pint 99] [PyVal.pint 0] (by decide)⟩

/-- C1 witness at a concrete sorted comparison track. -/
theorem C1_nearest_matcher_witness :
    (([Seg.mk 300 1300 "a", Seg.mk 10000 11000 "c"] : List Seg).Pairwise seg_le) ∧
    ((∀ e m, (e, some m) ∈ matched [Seg.mk 0 2000 "A", Seg.mk 5000 7000 "B"]
          [Seg.mk 300 1300 "a", Seg.mk 10000 11000 "c"] 1000 →
        m ∈ [Seg.mk 300 1300 "a", Seg.mk 10000 11000 "c"] ∧
          |m.start_time - e.start_time| ≤ 1000 ∧
          (∀ c ∈ [Seg.mk 300 1300 "a", Seg.mk 10000 11000 "c"],
            |m.start_time - e.start_time| ≤ |c.start_time - e.start_time|) ∧
          (∀ c ∈ [Seg.mk 300 1300 "a", Seg.mk 10000 11000 "c"],
            |c.start_time - e.start_time| = |m.start_time - e.start_time| →
            c.start_time ≠ m.start_time →
            m.start_time < e.start_time ∧ e.start_time < c.start_time)) ∧
      (∀ e ∈ ([Seg.mk 0 2000 "A", Seg.mk 5000 7000 "B"] : List Seg),
        ((e, (none : Option Seg)) ∈ matched [Seg.mk 0 2000 "A", Seg.mk 5000 7000 "B"]
            [Seg.mk 300 1300 "a", Seg.mk 10000 11000 "c"] 1000 ↔
          ∀ c ∈ [Seg.mk 300 1300 "a", Seg.mk 10000 11000 "c"],
            1000 < |c.start_time - e.start_time|))) :=
  ⟨by decide,
   C1_nearest_matcher_amended [Seg.mk 0 2000 "A", Seg.mk 5000 7000 "B"]
     [Seg.mk 300 1300 "a", Seg.mk 10000 11000 "c"] 1000 (by decide)⟩

/-- C2 witness at a concrete sorted comparison track. -/
theorem C2_output_shape_witness :
    (([Seg.mk 300 1300 "a", Seg.mk 10000 11000 "c"] : List Seg).Pairwise seg_le) ∧
    ((matched_pairs [Seg.mk 0 2000 "A", Seg.mk 5000 7000 "B"]
          [Seg.mk 300 1300 "a", Seg.mk 10000 11000 "c"] 1000).length =
        ([Seg.mk 0 2000 "A", Seg.mk 5000 7000 "B"] : List Seg).length ∧
      final [Seg.mk 0 2000 "A", Seg.mk 5000 7000 "B"]
          [Seg.mk 300 1300 "a", Seg.mk 10000 11000 "c"] 1000 =
        matched_pairs [Seg.mk 0 2000 "A", Seg.mk 5000 7000 "B"]
            [Seg.mk 300 1300 "a", Seg.mk 10000 11000 "c"] 1000 ++
          (unmatched_kor [Seg.mk 0 2000 "A", Seg.mk 5000 7000 "B"]
              [Seg.mk 300 1300 "a", Seg.mk 10000 11000 "c"] 1000).map
            (fun c => ("", some c.text)) ∧
      (final [Seg.mk 0 2000 "A", Seg.mk 5000 7000 "B"]
          [Seg.mk 300 1300 "a", Seg.mk 10000 11000 "c"] 1000).length =
        ([Seg.mk 0 2000 "A", Seg.mk 5000 7000 "B"] : List Seg).length +
          (unmatched_kor [Seg.mk 0 2000 "A", Seg.mk 5000 7000 "B"]
              [Seg.mk 300 1300 "a", Seg.mk 10000 11000 "c"] 1000).length ∧
      (unmatched_kor [Seg.mk 0 2000 "A", Seg.mk 5000 7000 "B"]
          [Seg.mk 300 1300 "a", Seg.mk 10000 11000 "c"] 1000).Pairwise seg_le) :=
  ⟨by decide,
   C2_output_shape [Seg.mk 0 2000 "A", Seg.mk 5000 7000 "B"]
     [Seg.mk 300 1300 "a", Seg.mk 10000 11000 "c"] 1000 (by decide)⟩

/-- C3 witness at a concrete comparison track with distinct start
times. -/
theorem C3_exactly_once_witness :
    (([Seg.mk 300 1300 "a", Seg.mk 10000 11000 "c"] : List Seg).Pairwise seg_le) ∧
    (([Seg.mk 300 1300 "a", Seg.mk 10000 11000 "c"] : List Seg).Pairwise
        fun a b => a.start_time ≠ b.start_time) ∧
    (Seg.mk 300 1300 "a" ∈ ([Seg.mk 300 1300 "a", Seg.mk 10000 11000 "c"] : List Seg)) ∧
    (((∃ e ∈ ([Seg.mk 0 2000 "A", Seg.mk 5000 7000 "B"] : List Seg),
          merge_asof_row [Seg.mk 300 1300 "a", Seg.mk 10000 11000 "c"] 1000
              e.start_time =
            some (Seg.mk 300 1300 "a")) ↔
        Seg.mk 300 1300 "a" ∉ unmatched_kor [Seg.mk 0 2000 "A", Seg.mk 5000 7000 "B"]
            [Seg.mk 300 1300 "a", Seg.mk 10000 11000 "c"] 1000) ∧
      (unmatched_kor [Seg.mk 0 2000 "A", Seg.mk 5000 7000 "B"]
          [Seg.mk 300 1300 "a", Seg.mk 10000 11000 "c"] 1000).Nodup) :=
  ⟨by decide, by decide, by decide,
   C3_exactly_once [Seg.mk 0 2000 "A", Seg.mk 5000 7000 "B"]
     [Seg.mk 300 1300 "a", Seg.mk 10000 11000 "c"] 1000 (Seg.mk 300 1300 "a")
     (by decide) (by decide) (by decide)⟩
